import Mathlib

/-!
Verification of the data-aggregation and statistical-summary pipeline of the
music-dashboard application (App.tsx).  The numeric type of the source
(JavaScript number) is modelled by the rationals; all list-processing code is
translated function by function from the source.  JavaScript's stable
Array.prototype.sort with a comparator cmp is modelled by insertion sort on
the relation "cmp(a,b) <= 0", which is the unique stable sort for that
comparator.
-/

set_option allowUnsafeReducibility true
attribute [local semireducible] Rat.add Rat.mul Rat.sub Rat.inv Rat.div

/-! ## String helpers (JS trim / toLowerCase / replace(\s+, " ") / split(",")) -/

/-- Whitespace test corresponding to the whitespace class used by JS trim and
the regex \s (restricted to the ASCII whitespace actually occurring in CSV
fields). -/
def isWsChar (c : Char) : Bool :=
  c = ' ' || c = '\t' || c = '\n' || c = '\r'

def trimChars (l : List Char) : List Char :=
  ((l.dropWhile isWsChar).reverse.dropWhile isWsChar).reverse

/-- Model of JS String.prototype.trim. -/
def jsTrim (s : String) : String := String.mk (trimChars s.data)

/-- Model of JS String.prototype.toLowerCase (ASCII). -/
def jsToLower (s : String) : String := String.mk (s.data.map Char.toLower)

/-- Model of JS x.replace(new RegExp of one-or-more-whitespace, " "): every
maximal run of whitespace characters becomes a single space. -/
def collapseWsChars : List Char → List Char
  | [] => []
  | [c] => if isWsChar c then [' '] else [c]
  | c1 :: c2 :: rest =>
    if isWsChar c1 && isWsChar c2 then collapseWsChars (c2 :: rest)
    else (if isWsChar c1 then ' ' else c1) :: collapseWsChars (c2 :: rest)

def collapseWs (s : String) : String := String.mk (collapseWsChars s.data)

/-- Model of JS String.prototype.split(","). -/
def splitCommaChars : List Char → List Char → List (List Char)
  | acc, [] => [acc.reverse]
  | acc, c :: rest =>
    if c = ',' then acc.reverse :: splitCommaChars [] rest
    else splitCommaChars (c :: acc) rest

def splitComma (s : String) : List String :=
  (splitCommaChars [] s.data).map String.mk

/-! ## Row normalizer pieces (App.tsx) -/

/-- The placeholder genre tokens discarded by parseGenres (the set named bad
in the source). -/
def badGenres : List String := ["n/a", "na", "none", "unknown", "null", "undefined", ""]

/-- Translation of parseGenres from App.tsx: trim the raw string, return []
when empty, otherwise split on commas, trim/lower-case each token, collapse
inner whitespace, and drop placeholder tokens. -/
def parseGenres (s : String) : List String :=
  let raw := jsTrim s
  if raw = "" then []
  else
    ((splitComma raw).map (fun x => collapseWs (jsToLower (jsTrim x)))).filter
      (fun x => !(badGenres.contains x))

/-- Translation of normalizeAlbumType from App.tsx.  The argument is the raw
album_type cell; a missing value (s ?? "") is modelled by Option.  The JS
v-or-other expression maps only the empty string to the label other. -/
def normalizeAlbumType (s : Option String) : String :=
  let v := jsToLower (jsTrim (s.getD ""))
  if v = "" then "other" else v

/-- The Row record of App.tsx (numeric fields as rationals; a missing
artist_genres cell is modelled by the empty string, matching the s ?? ""
coercion inside parseGenres). -/
structure Row where
  track_id : String
  track_name : String
  track_popularity : ℚ
  artist_name : String
  artist_popularity : ℚ
  artist_followers : ℚ
  artist_genres : String
  album_type : String
  year : ℤ
  track_duration_min : ℚ
deriving DecidableEq

/-! ## Insertion-ordered map (JS Map<string, number>) -/

def mapGet (m : List (String × ℚ)) (k : String) : Option ℚ :=
  (m.find? (fun p => p.1 = k)).map Prod.snd

/-- JS Map.prototype.set: update the value in place when the key is present,
otherwise append the new key at the end (insertion order). -/
def mapSet : List (String × ℚ) → String → ℚ → List (String × ℚ)
  | [], k, v => [(k, v)]
  | p :: rest, k, v => if p.1 = k then (k, v) :: rest else p :: mapSet rest k v

/-- The value a genre currently holds in the accumulator (missing keys read
as 0, matching the get(g) ?? 0 in the source). -/
def valAt (m : List (String × ℚ)) (g : String) : ℚ := (mapGet m g).getD 0

/-! ## Genre weighting (the genreCounts loop of App.tsx) -/

def bumpGenre (w : ℚ) (m : List (String × ℚ)) (g : String) : List (String × ℚ) :=
  mapSet m g (valAt m g + w)

/-- One iteration of the genreCounts loop: parse the track's genres, skip the
track if it has none, otherwise add 1/k to each of its k genre tokens. -/
def addTrackGenres (m : List (String × ℚ)) (r : Row) : List (String × ℚ) :=
  let gs := parseGenres r.artist_genres
  if gs.isEmpty then m
  else gs.foldl (bumpGenre (1 / (gs.length : ℚ))) m

/-- The full genreCounts accumulation over a row list. -/
def genreCounts (rows : List Row) : List (String × ℚ) :=
  rows.foldl addTrackGenres []

/-! ## Year range and top genres -/

def yearExtent : ℤ × ℤ := (2009, 2025)

def rowsInRange (rows : List Row) : List Row :=
  rows.filter (fun d => decide (yearExtent.1 ≤ d.year ∧ d.year ≤ yearExtent.2))

/-- Comparator relation of the sort (a, b) => b[1] - a[1] on map entries:
descending by weighted count (stable). -/
def cntDesc (a b : String × ℚ) : Prop := b.2 ≤ a.2

instance : DecidableRel cntDesc :=
  fun a b => inferInstanceAs (Decidable (b.2 ≤ a.2))

def topGenres (rows : List Row) : List String :=
  ((List.insertionSort cntDesc (genreCounts (rowsInRange rows))).take 10).map Prod.fst

/-- d3.range(yearExtent[0], yearExtent[1] + 1). -/
def yearsRange : List ℤ := (List.range 17).map (fun i => 2009 + (i : ℤ))

structure GenreYearCount where
  year : ℤ
  genre : String
  count : ℚ
deriving DecidableEq

/-- The per-year inner loop of byYearGenre: weighted counts over one year's
rows, restricted to genres in the top-10 set but weighted by the full parsed
genre-list length. -/
def yearGenreCounts (yearRows : List Row) (topGs : List String) : List (String × ℚ) :=
  yearRows.foldl
    (fun counts r =>
      let gsAll := parseGenres r.artist_genres
      let gs := gsAll.filter (fun g => topGs.contains g)
      if gs.isEmpty then counts
      else gs.foldl (bumpGenre (1 / (gsAll.length : ℚ))) counts)
    []

/-- Translation of the byYearGenre construction: for every year of the range
and every top genre push one entry, counts read with get(g) ?? 0.  The
leading rows-empty test models the early return of the useMemo. -/
def byYearGenre (rows : List Row) : List GenreYearCount :=
  if rows.isEmpty then []
  else
    let rir := rowsInRange rows
    let topGs := topGenres rows
    yearsRange.flatMap (fun y =>
      let counts := yearGenreCounts (rir.filter (fun d => d.year = y)) topGs
      topGs.map (fun g => ⟨y, g, valAt counts g⟩))

/-! ## Popularity by album type (byTypePop) -/

structure TypePops where
  album_type : String
  pops : List ℚ
  n : ℕ
deriving DecidableEq

def clampPop (x : ℚ) : ℚ := max 0 (min 100 x)

/-- Keys of d3.rollups in first-occurrence order. -/
def typeKeys (rows : List Row) : List String :=
  rows.foldl (fun acc r => if acc.contains r.album_type then acc else acc ++ [r.album_type]) []

/-- One rollup group: the popularity values of one album type, clamped to
[0, 100] and sorted ascending (the Number.isFinite filter of the source is
identically true on rationals). -/
def groupPops (rows : List Row) (t : String) : List ℚ :=
  List.insertionSort (· ≤ ·)
    (((rows.filter (fun d => d.album_type = t)).map Row.track_popularity).map clampPop)

/-- order.indexOf for order = [album, single, compilation, other]; -1 when
missing, as in JS. -/
def orderIdx (t : String) : ℤ :=
  if t = "album" then 0
  else if t = "single" then 1
  else if t = "compilation" then 2
  else if t = "other" then 3
  else -1

def typeOrd (a b : TypePops) : Prop := orderIdx a.album_type ≤ orderIdx b.album_type

instance : DecidableRel typeOrd :=
  fun a b => inferInstanceAs (Decidable (orderIdx a.album_type ≤ orderIdx b.album_type))

/-- Translation of byTypePop: rollup by album type over the rows in range,
then sort the groups by the fixed album-type order (the rows-empty test
models the early return of the useMemo). -/
def byTypePop (rows : List Row) : List TypePops :=
  if rows.isEmpty then []
  else
    let rir := rowsInRange rows
    List.insertionSort typeOrd
      ((typeKeys rir).map (fun t =>
        let ps := groupPops rir t
        ⟨t, ps, ps.length⟩))

/-! ## d3.min / d3.max / d3.quantile -/

def listMin : List ℚ → Option ℚ
  | [] => none
  | x :: xs => some (xs.foldl min x)

def listMax : List ℚ → Option ℚ
  | [] => none
  | x :: xs => some (xs.foldl max x)

/-- Floor of a non-negative rational as a natural number (computable). -/
def ratFloorNat (q : ℚ) : ℕ := q.num.toNat / q.den

/-- Translation of d3.quantile for the (already sorted) arrays the source
passes to it: undefined on empty input, min for p <= 0 or fewer than two
values, max for p >= 1, otherwise linear interpolation at position (n-1)p.
The value0/value1 of the d3 source are the max of the first i0+1 values and
the min of the remaining values (d3 computes them through quickselect, which
for the order statistics is the same). -/
def quantileSorted (v : List ℚ) (p : ℚ) : Option ℚ :=
  if v.length = 0 then none
  else if p ≤ 0 ∨ v.length < 2 then listMin v
  else if 1 ≤ p then listMax v
  else
    let i : ℚ := ((v.length : ℚ) - 1) * p
    let i0 : ℕ := ratFloorNat i
    let value0 := (listMax (v.take (i0 + 1))).getD 0
    let value1 := (listMin (v.drop (i0 + 1))).getD 0
    some (value0 + (value1 - value0) * (i - (i0 : ℚ)))

/-! ## Top-N popularity scatter (drawScatterTilesTopN) -/

/-- The base filter of drawScatterTilesTopN: follower count at least 1,
finite popularity and duration (identically true on rationals), non-empty
trimmed track and artist names. -/
def scatterBaseFilter (rows : List Row) : List Row :=
  ((rows.filter (fun d => decide (1 ≤ d.artist_followers))).filter
      (fun d => !(jsTrim d.track_name = ""))).filter
    (fun d => !(jsTrim d.artist_name = ""))

/-- Comparator relation of sort((a, b) => b.track_popularity -
a.track_popularity): descending popularity (stable). -/
def popDesc (a b : Row) : Prop := b.track_popularity ≤ a.track_popularity

instance : DecidableRel popDesc :=
  fun a b => inferInstanceAs (Decidable (b.track_popularity ≤ a.track_popularity))

instance : IsTotal Row popDesc := ⟨fun a b => le_total b.track_popularity a.track_popularity⟩

instance : IsTrans Row popDesc := ⟨fun _ _ _ h1 h2 => le_trans h2 h1⟩

def TOP_N : ℕ := 500

/-- The selected scatter rows: stable sort descending by popularity, then
slice(0, min(TOP_N, dataAll.length)). -/
def scatterData (rows : List Row) : List Row :=
  let dataAll := scatterBaseFilter rows
  (List.insertionSort popDesc dataAll).take (min TOP_N dataAll.length)

/-- dursSorted of the source: the selected durations sorted ascending. -/
def scatterDurs (rows : List Row) : List ℚ :=
  List.insertionSort (· ≤ ·) ((scatterData rows).map Row.track_duration_min)

/-- The legend bounds of drawScatterTilesTopN: 3rd and 97th percentile of the
selected durations, with the fallback {0, 1} when no row passes the base
filter (the early return of the source). -/
def scatterLegend (rows : List Row) : ℚ × ℚ :=
  if (scatterBaseFilter rows).isEmpty then (0, 1)
  else
    let ds := scatterDurs rows
    let durLo := (quantileSorted ds (3 / 100)).getD ((listMin ds).getD 0)
    let durHi := (quantileSorted ds (97 / 100)).getD ((listMax ds).getD 1)
    (min durLo durHi, max durLo durHi)

/-! ## Box-plot summary (drawBoxplotPopularity) -/

structure BoxSummary where
  album_type : String
  n : ℕ
  q1 : ℚ
  med : ℚ
  q3 : ℚ
  lo : ℚ
  hi : ℚ
  sample : List ℚ
deriving DecidableEq

/-- Translation of the per-group summary map of drawBoxplotPopularity:
quartiles via d3.quantile with the JS array-index fallbacks, whisker
endpoints as the nearest data values inside the 1.5 IQR fences (falling back
to v[0] / v[v.length - 1]), and the deterministic index-strided sample. -/
def summaryOf (t : String) (v : List ℚ) : BoxSummary :=
  let q1 := (quantileSorted v (1 / 4)).getD (v.getD 0 0)
  let med := (quantileSorted v (1 / 2)).getD (v.getD (v.length / 2) 0)
  let q3 := (quantileSorted v (3 / 4)).getD (v.getD (v.length - 1) 0)
  let iqr := q3 - q1
  let loFence := q1 - 3 / 2 * iqr
  let hiFence := q3 + 3 / 2 * iqr
  let lo := (listMin (v.filter (fun x => decide (loFence ≤ x)))).getD (v.getD 0 0)
  let hi := (listMax (v.filter (fun x => decide (x ≤ hiFence)))).getD (v.getD (v.length - 1) 0)
  let maxPts : ℕ := 180
  let step := max 1 (v.length / maxPts)
  let sample := (v.enum.filter (fun pr => pr.1 % step = 0)).map Prod.snd
  ⟨t, v.length, q1, med, q3, lo, hi, sample⟩

/-- The data list of drawBoxplotPopularity: the three named album types in
fixed order, defaulting to an empty group, keeping only non-empty groups. -/
def boxplotData (stats : List TypePops) : List TypePops :=
  ((["album", "single", "compilation"].map
      (fun k => ((stats.find? (fun d => d.album_type = k)).getD ⟨k, [], 0⟩))).filter
    (fun d => decide (0 < d.n)))

/-- The summary array of drawBoxplotPopularity. -/
def boxSummaries (stats : List TypePops) : List BoxSummary :=
  (boxplotData stats).map (fun d => summaryOf d.album_type d.pops)

/-! ## Helper rows for concrete instances -/

def mkR (nm an : String) (pop fol dur : ℚ) (gen ty : String) (yr : ℤ) : Row :=
  ⟨"", nm, pop, an, 0, fol, gen, ty, yr, dur⟩

/-! ## Lemmas about the insertion-ordered map -/

theorem valAt_nil (g : String) : valAt [] g = 0 := rfl

theorem valAt_cons (p : String × ℚ) (rest : List (String × ℚ)) (g : String) :
    valAt (p :: rest) g = if p.1 = g then p.2 else valAt rest g := by
  by_cases h : p.1 = g <;> simp [valAt, mapGet, List.find?_cons, h]

theorem valAt_mapSet (m : List (String × ℚ)) (k : String) (v : ℚ) (g : String) :
    valAt (mapSet m k v) g = if g = k then v else valAt m g := by
  induction m with
  | nil =>
    simp only [mapSet, valAt_cons, valAt_nil]
    by_cases h : g = k
    · rw [if_pos h.symm, if_pos h]
    · rw [if_neg (fun hc : k = g => h hc.symm), if_neg h]
  | cons p rest ih =>
    by_cases hp : p.1 = k
    · simp only [mapSet, if_pos hp, valAt_cons]
      by_cases h : g = k
      · rw [if_pos h.symm, if_pos h]
      · rw [if_neg (fun hc : k = g => h hc.symm), if_neg h,
          if_neg (fun hc : p.1 = g => h (hp.symm.trans hc).symm)]
    · simp only [mapSet, if_neg hp, valAt_cons]
      by_cases h : g = k
      · have hpg : ¬ p.1 = g := fun hc => hp (hc.trans h)
        rw [if_neg hpg, ih, if_pos h, if_pos h]
      · by_cases hpg : p.1 = g
        · rw [if_pos hpg, if_neg h, if_pos hpg]
        · rw [if_neg hpg, ih, if_neg h, if_neg h, if_neg hpg]

theorem valAt_foldl_bump (w : ℚ) (gs : List String) (m : List (String × ℚ)) (g : String) :
    valAt (gs.foldl (bumpGenre w) m) g = valAt m g + (gs.count g : ℚ) * w := by
  induction gs generalizing m with
  | nil => simp
  | cons g' gs ih =>
    rw [List.foldl_cons, ih, bumpGenre, valAt_mapSet]
    by_cases h : g = g'
    · subst h
      rw [if_pos rfl, List.count_cons_self]
      push_cast
      ring
    · rw [if_neg h, List.count_cons_of_ne h]

theorem sum_count_eq_length (l : List String) (gs : Finset String)
    (hsub : ∀ g ∈ l, g ∈ gs) : ∑ g ∈ gs, (l.count g : ℚ) = (l.length : ℚ) := by
  have h1 : ∑ g ∈ l.toFinset, (l.count g : ℚ) = (l.length : ℚ) := by
    rw [← Nat.cast_sum]
    exact_mod_cast congrArg (Nat.cast (R := ℚ)) (List.sum_toFinset_count_eq_length l)
  rw [← Finset.sum_subset (fun g hg => hsub g (List.mem_toFinset.mp hg))
    (fun g _ hg => by
      norm_cast
      exact List.count_eq_zero.mpr (fun hc => hg (List.mem_toFinset.mpr hc)))]
  exact h1

/-- C1: for every track, the genreCounts loop adds count-of-g times 1/k to
each genre g (so exactly 1/k to each of the k genre tokens of the track), a
track with no valid genres leaves the accumulator unchanged, and for a track
with at least one valid genre the total added over all genres is exactly 1. -/
theorem weighted_genre_contribution (m : List (String × ℚ)) (r : Row) (gs : Finset String)
    (hsub : ∀ g ∈ parseGenres r.artist_genres, g ∈ gs) :
    (∀ g, valAt (addTrackGenres m r) g =
      valAt m g + ((parseGenres r.artist_genres).count g : ℚ) *
        (1 / ((parseGenres r.artist_genres).length : ℚ))) ∧
    (parseGenres r.artist_genres = [] → addTrackGenres m r = m) ∧
    (parseGenres r.artist_genres ≠ [] →
      ∑ g ∈ gs, (valAt (addTrackGenres m r) g - valAt m g) = 1) := by
  by_cases he : parseGenres r.artist_genres = []
  · refine ⟨fun g => ?_, fun _ => ?_, fun hne => absurd he hne⟩
    · rw [addTrackGenres, he]
      simp
    · rw [addTrackGenres, he]
      simp
  · have hfold : addTrackGenres m r =
        (parseGenres r.artist_genres).foldl
          (bumpGenre (1 / ((parseGenres r.artist_genres).length : ℚ))) m := by
      rw [addTrackGenres]
      simp only [List.isEmpty_iff, he, if_false]
    refine ⟨fun g => ?_, fun hc => absurd hc he, fun _ => ?_⟩
    · rw [hfold, valAt_foldl_bump]
    · have hlen : ((parseGenres r.artist_genres).length : ℚ) ≠ 0 := by
        have : 0 < (parseGenres r.artist_genres).length := List.length_pos.mpr he
        positivity
      calc ∑ g ∈ gs, (valAt (addTrackGenres m r) g - valAt m g)
          = ∑ g ∈ gs, ((parseGenres r.artist_genres).count g : ℚ) *
              (1 / ((parseGenres r.artist_genres).length : ℚ)) := by
            refine Finset.sum_congr rfl (fun g _ => ?_)
            rw [hfold, valAt_foldl_bump]
            ring
        _ = (∑ g ∈ gs, ((parseGenres r.artist_genres).count g : ℚ)) *
              (1 / ((parseGenres r.artist_genres).length : ℚ)) := by
            rw [Finset.sum_mul]
        _ = 1 := by
            rw [sum_count_eq_length _ _ hsub]
            field_simp

def c1Row : Row := mkR "t" "a" 50 1 3 "pop, rock" "album" 2020

theorem weighted_genre_contribution_witness :
    (∀ g ∈ parseGenres c1Row.artist_genres, g ∈ ({"pop", "rock"} : Finset String)) ∧
    parseGenres c1Row.artist_genres ≠ [] ∧
    ∑ g ∈ ({"pop", "rock"} : Finset String),
      (valAt (addTrackGenres [] c1Row) g - valAt [] g) = 1 :=
  ⟨by decide, by decide,
    (weighted_genre_contribution [] c1Row {"pop", "rock"} (by decide)).2.2 (by decide)⟩

/-! ## Keys of the genre map are distinct -/

theorem mapSet_keys (m : List (String × ℚ)) (k : String) (v : ℚ) :
    (mapSet m k v).map Prod.fst =
      if k ∈ m.map Prod.fst then m.map Prod.fst else m.map Prod.fst ++ [k] := by
  induction m with
  | nil => simp [mapSet]
  | cons p rest ih =>
    by_cases hp : p.1 = k
    · simp [mapSet, hp]
    · simp only [mapSet, if_neg hp, List.map_cons, List.mem_cons]
      by_cases hk : k ∈ rest.map Prod.fst
      · rw [if_pos (Or.inr hk)] at *
        rw [ih, if_pos hk]
      · rw [if_neg (fun hc => hc.elim (fun h => hp h.symm) hk)]
        rw [ih, if_neg hk]
        simp

theorem keysNodup_mapSet {m : List (String × ℚ)} (k : String) (v : ℚ)
    (h : (m.map Prod.fst).Nodup) : ((mapSet m k v).map Prod.fst).Nodup := by
  rw [mapSet_keys]
  by_cases hk : k ∈ m.map Prod.fst
  · rwa [if_pos hk]
  · rw [if_neg hk, List.nodup_append]
    refine ⟨h, List.nodup_singleton k, fun a ha hb => ?_⟩
    rw [List.mem_singleton] at hb
    exact hk (hb ▸ ha)

theorem keysNodup_foldl_bump (w : ℚ) (gs : List String) (m : List (String × ℚ))
    (h : (m.map Prod.fst).Nodup) :
    (((gs.foldl (bumpGenre w) m)).map Prod.fst).Nodup := by
  induction gs generalizing m with
  | nil => exact h
  | cons g gs ih => exact ih _ (keysNodup_mapSet g _ h)

theorem keysNodup_genreCounts_aux (rowsL : List Row) (m : List (String × ℚ))
    (h : (m.map Prod.fst).Nodup) :
    ((rowsL.foldl addTrackGenres m).map Prod.fst).Nodup := by
  induction rowsL generalizing m with
  | nil => exact h
  | cons r rest ih =>
    refine ih _ ?_
    rw [addTrackGenres]
    by_cases he : (parseGenres r.artist_genres).isEmpty
    · rwa [if_pos he]
    · rw [if_neg he]
      exact keysNodup_foldl_bump _ _ _ h

theorem topGenres_nodup (rows : List Row) : (topGenres rows).Nodup := by
  have h1 : ((genreCounts (rowsInRange rows)).map Prod.fst).Nodup :=
    keysNodup_genreCounts_aux _ _ (by simp)
  have h2 : ((List.insertionSort cntDesc (genreCounts (rowsInRange rows))).map Prod.fst).Nodup :=
    List.Perm.nodup (List.Perm.symm (List.Perm.map Prod.fst (List.perm_insertionSort cntDesc _))) h1
  rw [topGenres]
  exact List.Sublist.nodup (List.Sublist.map Prod.fst (List.take_sublist 10 _)) h2

/-! ## Counting helpers -/

theorem sum_map_ite_nodup (l : List ℤ) (y0 : ℤ) (c : ℕ) (hn : l.Nodup) (hm : y0 ∈ l) :
    (l.map (fun y => if y = y0 then c else 0)).sum = c := by
  induction l with
  | nil => cases hm
  | cons a l ih =>
    rw [List.nodup_cons] at hn
    by_cases h : a = y0
    · subst h
      have hz : (l.map (fun y => if y = a then c else 0)).sum = 0 :=
        List.sum_eq_zero (fun x hx => by
          obtain ⟨y, hy, hxy⟩ := List.mem_map.mp hx
          rw [← hxy, if_neg (fun hc : y = a => hn.1 (hc ▸ hy))])
      simp [hz]
    · have hm' : y0 ∈ l := by
        rcases List.mem_cons.mp hm with h1 | h1
        · exact absurd h1.symm h
        · exact h1
      simp [h, ih hn.2 hm']

theorem countP_eq_one_nodup (l : List String) (g0 : String) (hn : l.Nodup) (hm : g0 ∈ l) :
    l.countP (fun g => decide (g = g0)) = 1 := by
  induction l with
  | nil => cases hm
  | cons a l ih =>
    rw [List.nodup_cons] at hn
    by_cases h : a = g0
    · subst h
      rw [List.countP_cons, if_pos (by simp)]
      rw [List.countP_eq_zero.mpr (fun b hb => by
        simp only [decide_eq_true_eq]
        exact fun hc => hn.1 (hc ▸ hb))]
    · have hm' : g0 ∈ l := by
        rcases List.mem_cons.mp hm with h1 | h1
        · exact absurd h1.symm h
        · exact h1
      rw [List.countP_cons, if_neg (by simpa using h), add_zero, ih hn.2 hm']

theorem valAt_nonneg_yearGenreCounts (yearRows : List Row) (topGs : List String) (g : String) :
    0 ≤ valAt (yearGenreCounts yearRows topGs) g := by
  suffices h : ∀ (rs : List Row) (m : List (String × ℚ)), (∀ g', 0 ≤ valAt m g') →
      ∀ g', 0 ≤ valAt (rs.foldl (fun counts r =>
        let gsAll := parseGenres r.artist_genres
        let gs := gsAll.filter (fun g => topGs.contains g)
        if gs.isEmpty then counts
        else gs.foldl (bumpGenre (1 / (gsAll.length : ℚ))) counts) m) g' by
    exact h yearRows [] (fun g' => le_of_eq (valAt_nil g').symm) g
  intro rs
  induction rs with
  | nil => exact fun m hm g' => hm g'
  | cons r rest ih =>
    intro m hm g'
    rw [List.foldl_cons]
    apply ih
    intro g''
    dsimp only
    by_cases he : ((parseGenres r.artist_genres).filter (fun g => topGs.contains g)).isEmpty
    · rw [if_pos he]
      exact hm g''
    · rw [if_neg he, valAt_foldl_bump]
      have hw : 0 ≤ (1 / (((parseGenres r.artist_genres)).length : ℚ)) := by positivity
      have hc : (0 : ℚ) ≤ ((((parseGenres r.artist_genres).filter
          (fun g => topGs.contains g)).count g'' : ℕ) : ℚ) := Nat.cast_nonneg _
      exact add_nonneg (hm g'') (mul_nonneg hc hw)

/-- The entries pushed for one year of the byYearGenre loop (the loop body of
the source, factored out; byYearGenre is definitionally this per year). -/
def yearEntries (rows : List Row) (y : ℤ) : List GenreYearCount :=
  (topGenres rows).map (fun g =>
    ⟨y, g, valAt (yearGenreCounts ((rowsInRange rows).filter (fun d => d.year = y))
      (topGenres rows)) g⟩)

theorem byYearGenre_eq (rows : List Row) :
    byYearGenre rows = if rows.isEmpty then [] else yearsRange.flatMap (yearEntries rows) := rfl

/-- C2: the genre-year output holds exactly one entry for every pair of a
year in the active range and a genre in the top-genre set (zero-filled, never
missing), and every stored count is non-negative. -/
theorem byYearGenre_matrix (rows : List Row) :
    (∀ y ∈ yearsRange, ∀ g ∈ topGenres rows,
      (byYearGenre rows).countP (fun e => decide (e.year = y ∧ e.genre = g)) = 1) ∧
    (∀ e ∈ byYearGenre rows, 0 ≤ e.count) := by
  constructor
  · intro y hy g hg
    by_cases hre : rows.isEmpty
    · rw [List.isEmpty_iff] at hre
      subst hre
      cases hg
    · rw [byYearGenre_eq, if_neg hre, List.countP_flatMap]
      have hcnt : ∀ y', List.countP (fun e => decide (e.year = y ∧ e.genre = g))
          (yearEntries rows y') =
          List.countP (fun g' => decide (y' = y ∧ g' = g)) (topGenres rows) := by
        intro y'
        rw [yearEntries, List.countP_map]
        exact List.countP_congr (fun g' _ => by simp [Function.comp])
      have hmapeq : yearsRange.map
          (List.countP (fun e => decide (e.year = y ∧ e.genre = g)) ∘ yearEntries rows) =
          yearsRange.map (fun y' => if y' = y then 1 else 0) := by
        refine List.map_congr_left (fun y' hy' => ?_)
        show List.countP _ (yearEntries rows y') = _
        rw [hcnt y']
        by_cases hyy : y' = y
        · subst hyy
          rw [if_pos rfl]
          have hq : List.countP (fun g' => decide (y' = y' ∧ g' = g)) (topGenres rows) =
              List.countP (fun g' => decide (g' = g)) (topGenres rows) :=
            List.countP_congr (fun g' _ => by simp)
          rw [hq, countP_eq_one_nodup _ _ (topGenres_nodup rows) hg]
        · rw [if_neg hyy]
          refine List.countP_eq_zero.mpr (fun g' _ => ?_)
          simp only [decide_eq_true_eq, not_and]
          exact fun hc => absurd hc hyy
      rw [hmapeq]
      exact sum_map_ite_nodup yearsRange y 1 (by decide) hy
  · intro e he
    by_cases hre : rows.isEmpty
    · rw [byYearGenre_eq, if_pos hre] at he
      cases he
    · rw [byYearGenre_eq, if_neg hre] at he
      obtain ⟨y, _, he2⟩ := List.mem_flatMap.mp he
      rw [yearEntries] at he2
      obtain ⟨g, _, rfl⟩ := List.mem_map.mp he2
      exact valAt_nonneg_yearGenreCounts _ _ g

def c2Rows : List Row := [mkR "t" "a" 60 1 3 "pop" "album" 2020]

theorem byYearGenre_matrix_witness :
    (2020 : ℤ) ∈ yearsRange ∧ "pop" ∈ topGenres c2Rows ∧
    (byYearGenre c2Rows).countP (fun e => decide (e.year = 2020 ∧ e.genre = "pop")) = 1 :=
  ⟨by decide, by decide,
    (byYearGenre_matrix c2Rows).1 2020 (by decide) "pop" (by decide)⟩

/-! ## Stable sort lemmas for the top-N scatter -/

theorem filter_take_eq_append {α : Type} (p : α → Bool) (n : ℕ) (l : List α) :
    ∃ t, l.filter p = (l.take n).filter p ++ t := by
  induction l generalizing n with
  | nil => exact ⟨[], by simp⟩
  | cons x xs ih =>
    cases n with
    | zero => exact ⟨(x :: xs).filter p, by simp⟩
    | succ n =>
      obtain ⟨t, ht⟩ := ih n
      by_cases hx : p x
      · exact ⟨t, by simp [List.filter_cons, hx, ht]⟩
      · exact ⟨t, by simp [List.filter_cons, hx, ht]⟩

theorem filter_popEq_insertionSort (l : List Row) (p : ℚ) :
    (List.insertionSort popDesc l).filter (fun r => decide (r.track_popularity = p)) =
      l.filter (fun r => decide (r.track_popularity = p)) := by
  induction l with
  | nil => rfl
  | cons x xs ih =>
    rw [List.insertionSort, List.orderedInsert_eq_take_drop, List.filter_append]
    by_cases hx : x.track_popularity = p
    · have htake : (List.takeWhile (fun b => decide ¬popDesc x b)
          (List.insertionSort popDesc xs)).filter
            (fun r => decide (r.track_popularity = p)) = [] := by
        refine List.filter_eq_nil_iff.mpr (fun b hb => ?_)
        have h1 := List.mem_takeWhile_imp hb
        simp only [decide_eq_true_eq] at h1 ⊢
        intro hbp
        exact h1 (le_of_eq (by rw [hbp, hx]))
      have hdrop : (List.dropWhile (fun b => decide ¬popDesc x b)
          (List.insertionSort popDesc xs)).filter
            (fun r => decide (r.track_popularity = p)) =
          xs.filter (fun r => decide (r.track_popularity = p)) := by
        rw [← ih]
        conv_rhs => rw [← List.takeWhile_append_dropWhile
          (fun b => decide ¬popDesc x b) (List.insertionSort popDesc xs)]
        rw [List.filter_append, htake, List.nil_append]
      rw [htake, List.nil_append, List.filter_cons, if_pos (by simpa using hx), hdrop,
        List.filter_cons, if_pos (by simpa using hx)]
    · have hdrop2 : (List.takeWhile (fun b => decide ¬popDesc x b)
          (List.insertionSort popDesc xs)).filter (fun r => decide (r.track_popularity = p)) ++
          (List.dropWhile (fun b => decide ¬popDesc x b)
            (List.insertionSort popDesc xs)).filter (fun r => decide (r.track_popularity = p)) =
          xs.filter (fun r => decide (r.track_popularity = p)) := by
        rw [← List.filter_append, List.takeWhile_append_dropWhile, ih]
      rw [List.filter_cons, if_neg (by simpa using hx), hdrop2, List.filter_cons,
        if_neg (by simpa using hx)]

/-- C3: the top-N scatter selection has length exactly min(500, number of
rows passing the base filter), is sorted descending by track popularity, and
within any class of equal popularity the selection preserves the original
relative order (its restriction to that class is a prefix of the base
filter's restriction). -/
theorem scatter_topN (rows : List Row) :
    (scatterData rows).length = min TOP_N (scatterBaseFilter rows).length ∧
    (scatterData rows).Pairwise popDesc ∧
    (∀ p : ℚ, ∃ t,
      (scatterBaseFilter rows).filter (fun r => decide (r.track_popularity = p)) =
        (scatterData rows).filter (fun r => decide (r.track_popularity = p)) ++ t) := by
  refine ⟨?_, ?_, ?_⟩
  · rw [scatterData, List.length_take, (List.perm_insertionSort popDesc _).length_eq]
    rw [min_assoc, min_self]
  · exact List.Pairwise.sublist (List.take_sublist _ _) (List.sorted_insertionSort popDesc _)
  · intro p
    obtain ⟨t, ht⟩ := filter_take_eq_append (fun r => decide (r.track_popularity = p))
      (min TOP_N (scatterBaseFilter rows).length)
      (List.insertionSort popDesc (scatterBaseFilter rows))
    exact ⟨t, by rw [scatterData, ← filter_popEq_insertionSort (scatterBaseFilter rows) p, ht]⟩

/-! ## Min / max lemmas -/

theorem foldl_min_mem (x : ℚ) (xs : List ℚ) : xs.foldl min x = x ∨ xs.foldl min x ∈ xs := by
  induction xs generalizing x with
  | nil => exact Or.inl rfl
  | cons y ys ih =>
    rw [List.foldl_cons]
    rcases ih (min x y) with h | h
    · rcases min_choice x y with hc | hc
      · exact Or.inl (h.trans hc)
      · right
        rw [h, hc]
        exact List.mem_cons_self y ys
    · exact Or.inr (List.mem_cons_of_mem y h)

theorem foldl_min_le (x : ℚ) (xs : List ℚ) : ∀ y ∈ x :: xs, xs.foldl min x ≤ y := by
  induction xs generalizing x with
  | nil =>
    intro y hy
    rw [List.mem_singleton] at hy
    subst hy
    exact le_refl _
  | cons z zs ih =>
    intro y hy
    rw [List.foldl_cons]
    have h1 : zs.foldl min (min x z) ≤ min x z := ih (min x z) _ (List.mem_cons_self _ _)
    rcases List.mem_cons.mp hy with h | h
    · subst h
      exact h1.trans (min_le_left _ _)
    · rcases List.mem_cons.mp h with h2 | h2
      · subst h2
        exact h1.trans (min_le_right _ _)
      · exact ih (min x z) y (List.mem_cons_of_mem _ h2)

theorem foldl_max_mem (x : ℚ) (xs : List ℚ) : xs.foldl max x = x ∨ xs.foldl max x ∈ xs := by
  induction xs generalizing x with
  | nil => exact Or.inl rfl
  | cons y ys ih =>
    rw [List.foldl_cons]
    rcases ih (max x y) with h | h
    · rcases max_choice x y with hc | hc
      · exact Or.inl (h.trans hc)
      · right
        rw [h, hc]
        exact List.mem_cons_self y ys
    · exact Or.inr (List.mem_cons_of_mem y h)

theorem le_foldl_max (x : ℚ) (xs : List ℚ) : ∀ y ∈ x :: xs, y ≤ xs.foldl max x := by
  induction xs generalizing x with
  | nil =>
    intro y hy
    rw [List.mem_singleton] at hy
    subst hy
    exact le_refl _
  | cons z zs ih =>
    intro y hy
    rw [List.foldl_cons]
    have h1 : max x z ≤ zs.foldl max (max x z) := ih (max x z) _ (List.mem_cons_self _ _)
    rcases List.mem_cons.mp hy with h | h
    · subst h
      exact (le_max_left _ z).trans h1
    · rcases List.mem_cons.mp h with h2 | h2
      · subst h2
        exact (le_max_right x _).trans h1
      · exact ih (max x z) y (List.mem_cons_of_mem _ h2)

theorem listMin_mem {l : List ℚ} {m : ℚ} (h : listMin l = some m) : m ∈ l := by
  cases l with
  | nil => cases h
  | cons x xs =>
    rw [listMin, Option.some_inj] at h
    subst h
    rcases foldl_min_mem x xs with h2 | h2
    · rw [h2]
      exact List.mem_cons_self x xs
    · exact List.mem_cons_of_mem x h2

theorem listMin_le {l : List ℚ} {m : ℚ} (h : listMin l = some m) : ∀ y ∈ l, m ≤ y := by
  cases l with
  | nil => cases h
  | cons x xs =>
    rw [listMin, Option.some_inj] at h
    subst h
    exact foldl_min_le x xs

theorem listMax_mem {l : List ℚ} {m : ℚ} (h : listMax l = some m) : m ∈ l := by
  cases l with
  | nil => cases h
  | cons x xs =>
    rw [listMax, Option.some_inj] at h
    subst h
    rcases foldl_max_mem x xs with h2 | h2
    · rw [h2]
      exact List.mem_cons_self x xs
    · exact List.mem_cons_of_mem x h2

theorem le_listMax {l : List ℚ} {m : ℚ} (h : listMax l = some m) : ∀ y ∈ l, y ≤ m := by
  cases l with
  | nil => cases h
  | cons x xs =>
    rw [listMax, Option.some_inj] at h
    subst h
    exact le_foldl_max x xs

theorem listMin_eq_of {l : List ℚ} {a : ℚ} (hmem : a ∈ l) (hlb : ∀ y ∈ l, a ≤ y) :
    listMin l = some a := by
  cases l with
  | nil => cases hmem
  | cons x xs =>
    rw [listMin, Option.some_inj]
    refine le_antisymm (foldl_min_le x xs a hmem) (hlb _ ?_)
    rcases foldl_min_mem x xs with h | h
    · rw [h]
      exact List.mem_cons_self x xs
    · exact List.mem_cons_of_mem x h

theorem listMax_eq_of {l : List ℚ} {a : ℚ} (hmem : a ∈ l) (hub : ∀ y ∈ l, y ≤ a) :
    listMax l = some a := by
  cases l with
  | nil => cases hmem
  | cons x xs =>
    rw [listMax, Option.some_inj]
    refine le_antisymm (hub _ ?_) (le_foldl_max x xs a hmem)
    rcases foldl_max_mem x xs with h | h
    · rw [h]
      exact List.mem_cons_self x xs
    · exact List.mem_cons_of_mem x h

theorem listMin_isSome {l : List ℚ} (h : l ≠ []) : ∃ m, listMin l = some m := by
  cases l with
  | nil => exact absurd rfl h
  | cons x xs => exact ⟨xs.foldl min x, rfl⟩

theorem listMax_isSome {l : List ℚ} (h : l ≠ []) : ∃ m, listMax l = some m := by
  cases l with
  | nil => exact absurd rfl h
  | cons x xs => exact ⟨xs.foldl max x, rfl⟩

/-! ## Sorted lists, rational floor, and d3.quantile -/

theorem sorted_getD_mono {v : List ℚ} (hs : v.Sorted (· ≤ ·)) {i j : ℕ}
    (hij : i ≤ j) (hj : j < v.length) : v.getD i 0 ≤ v.getD j 0 := by
  rcases eq_or_lt_of_le hij with h | h
  · subst h
    exact le_refl _
  · have hi : i < v.length := lt_trans h hj
    rw [List.getD_eq_getElem v 0 hi, List.getD_eq_getElem v 0 hj]
    exact List.pairwise_iff_getElem.mp hs i j hi hj h

theorem listMax_take_sorted {v : List ℚ} (hs : v.Sorted (· ≤ ·)) {i : ℕ}
    (hi : i < v.length) : listMax (v.take (i + 1)) = some (v.getD i 0) := by
  have hlen : i < (v.take (i + 1)).length := by
    rw [List.length_take]
    exact lt_min (Nat.lt_succ_self i) hi
  refine listMax_eq_of ?_ ?_
  · have h1 : (v.take (i + 1))[i] = v[i] := List.getElem_take v
    rw [List.getD_eq_getElem v 0 hi, ← h1]
    exact List.getElem_mem hlen
  · intro y hy
    obtain ⟨k, hk, hky⟩ := List.mem_iff_getElem.mp hy
    have hk2 : k < v.length := lt_of_lt_of_le hk (by rw [List.length_take]; exact min_le_right _ _)
    have h1 : (v.take (i + 1))[k] = v[k] := List.getElem_take v
    have hki : k ≤ i := by
      have := hk
      rw [List.length_take] at this
      omega
    rw [← hky, h1, ← List.getD_eq_getElem v 0 hk2]
    exact sorted_getD_mono hs hki hi

theorem listMin_drop_sorted {v : List ℚ} (hs : v.Sorted (· ≤ ·)) {i : ℕ}
    (hi : i < v.length) : listMin (v.drop i) = some (v.getD i 0) := by
  have hlen : 0 < (v.drop i).length := by
    rw [List.length_drop]
    omega
  refine listMin_eq_of ?_ ?_
  · rw [List.getD_eq_getElem v 0 hi]
    have h1 : (v.drop i)[0] = v[i] := by
      have h2 := List.getElem_drop v (i := i) (j := 0) (h := hlen)
      simpa using h2
    rw [← h1]
    exact List.getElem_mem hlen
  · intro y hy
    obtain ⟨k, hk, hky⟩ := List.mem_iff_getElem.mp hy
    have hk2 : i + k < v.length := by
      rw [List.length_drop] at hk
      omega
    have h1 : (v.drop i)[k] = v[i + k] := List.getElem_drop v
    rw [← hky, h1, ← List.getD_eq_getElem v 0 hk2]
    exact sorted_getD_mono hs (Nat.le_add_right i k) hk2

theorem listMin_sorted {v : List ℚ} (hs : v.Sorted (· ≤ ·)) (hne : v ≠ []) :
    listMin v = some (v.getD 0 0) := by
  have h0 : 0 < v.length := List.length_pos.mpr hne
  have := listMin_drop_sorted hs h0
  rwa [List.drop_zero] at this

theorem listMax_sorted {v : List ℚ} (hs : v.Sorted (· ≤ ·)) (hne : v ≠ []) :
    listMax v = some (v.getD (v.length - 1) 0) := by
  have h0 : 0 < v.length := List.length_pos.mpr hne
  have h1 : v.length - 1 < v.length := by omega
  have := listMax_take_sorted hs h1
  rwa [show v.length - 1 + 1 = v.length from by omega, List.take_length] at this

theorem rat_mul_den {q : ℚ} : q * (q.den : ℚ) = (q.num : ℚ) := by
  have hd : ((q.den : ℚ)) ≠ 0 := by
    exact_mod_cast q.den_pos.ne.symm
  conv_lhs =>
    lhs
    rw [← Rat.num_div_den q]
  exact div_mul_cancel₀ _ hd

theorem rat_num_toNat {q : ℚ} (hq : 0 ≤ q) : ((q.num.toNat : ℕ) : ℚ) = (q.num : ℚ) := by
  have h := Int.toNat_of_nonneg (Rat.num_nonneg.mpr hq)
  exact_mod_cast congrArg (fun z : ℤ => (z : ℚ)) h

theorem ratFloorNat_le {q : ℚ} (hq : 0 ≤ q) : (ratFloorNat q : ℚ) ≤ q := by
  have hd : (0 : ℚ) < (q.den : ℚ) := by exact_mod_cast q.den_pos
  have h1 : (ratFloorNat q : ℚ) * (q.den : ℚ) ≤ (q.num : ℚ) := by
    rw [ratFloorNat]
    calc ((q.num.toNat / q.den : ℕ) : ℚ) * (q.den : ℚ)
        = ((q.num.toNat / q.den * q.den : ℕ) : ℚ) := by push_cast; ring
      _ ≤ ((q.num.toNat : ℕ) : ℚ) := by exact_mod_cast Nat.div_mul_le_self _ _
      _ = (q.num : ℚ) := rat_num_toNat hq
  rw [← rat_mul_den] at h1
  exact le_of_mul_le_mul_right h1 hd

theorem lt_ratFloorNat_add_one {q : ℚ} (hq : 0 ≤ q) : q < (ratFloorNat q : ℚ) + 1 := by
  have hd : (0 : ℚ) < (q.den : ℚ) := by exact_mod_cast q.den_pos
  have hnat : q.num.toNat < (q.num.toNat / q.den + 1) * q.den := by
    have ha := Nat.div_add_mod q.num.toNat q.den
    have hb := Nat.mod_lt q.num.toNat q.den_pos
    calc q.num.toNat = q.den * (q.num.toNat / q.den) + q.num.toNat % q.den := ha.symm
      _ < q.den * (q.num.toNat / q.den) + q.den := Nat.add_lt_add_left hb _
      _ = (q.num.toNat / q.den + 1) * q.den := by ring
  have h1 : (q.num : ℚ) < ((ratFloorNat q : ℚ) + 1) * (q.den : ℚ) := by
    rw [ratFloorNat, ← rat_num_toNat hq]
    calc ((q.num.toNat : ℕ) : ℚ)
        < (((q.num.toNat / q.den + 1) * q.den : ℕ) : ℚ) := by exact_mod_cast hnat
      _ = (((q.num.toNat / q.den : ℕ) : ℚ) + 1) * (q.den : ℚ) := by push_cast; ring
  rw [← rat_mul_den] at h1
  exact lt_of_mul_lt_mul_right h1 (le_of_lt hd)

theorem ratFloorNat_eq_of {q : ℚ} {k : ℕ} (hq : 0 ≤ q) (h1 : (k : ℚ) ≤ q)
    (h2 : q < (k : ℚ) + 1) : ratFloorNat q = k := by
  have hl := ratFloorNat_le hq
  have hr := lt_ratFloorNat_add_one hq
  have ha : (ratFloorNat q : ℚ) < (k : ℚ) + 1 := lt_of_le_of_lt hl h2
  have hb : (k : ℚ) < (ratFloorNat q : ℚ) + 1 := lt_of_le_of_lt h1 hr
  have ha2 : ratFloorNat q < k + 1 := by exact_mod_cast ha
  have hb2 : k < ratFloorNat q + 1 := by exact_mod_cast hb
  omega

theorem quantileSorted_middle {v : List ℚ} {p : ℚ} (hs : v.Sorted (· ≤ ·))
    (hn : 2 ≤ v.length) (hp0 : 0 < p) (hp1 : p < 1) :
    ratFloorNat (((v.length : ℚ) - 1) * p) + 1 < v.length ∧
    0 ≤ ((v.length : ℚ) - 1) * p ∧
    quantileSorted v p = some (v.getD (ratFloorNat (((v.length : ℚ) - 1) * p)) 0 +
      (v.getD (ratFloorNat (((v.length : ℚ) - 1) * p) + 1) 0 -
        v.getD (ratFloorNat (((v.length : ℚ) - 1) * p)) 0) *
      (((v.length : ℚ) - 1) * p - (ratFloorNat (((v.length : ℚ) - 1) * p) : ℚ))) := by
  have hn1 : (1 : ℚ) ≤ ((v.length : ℚ) - 1) := by
    have h2 : (2 : ℚ) ≤ (v.length : ℚ) := by exact_mod_cast hn
    linarith
  have hi0 : 0 ≤ ((v.length : ℚ) - 1) * p := mul_nonneg (by linarith) (le_of_lt hp0)
  have hilt : ((v.length : ℚ) - 1) * p < (v.length : ℚ) - 1 := by
    calc ((v.length : ℚ) - 1) * p < ((v.length : ℚ) - 1) * 1 :=
          mul_lt_mul_of_pos_left hp1 (by linarith)
      _ = (v.length : ℚ) - 1 := mul_one _
  have hfl : (ratFloorNat (((v.length : ℚ) - 1) * p) : ℚ) < (v.length : ℚ) - 1 :=
    lt_of_le_of_lt (ratFloorNat_le hi0) hilt
  have hflnat : ratFloorNat (((v.length : ℚ) - 1) * p) + 1 < v.length := by
    have h2 : (ratFloorNat (((v.length : ℚ) - 1) * p) : ℚ) + 1 < (v.length : ℚ) := by linarith
    exact_mod_cast h2
  refine ⟨hflnat, hi0, ?_⟩
  rw [quantileSorted, if_neg (by omega),
    if_neg (by push_neg; exact ⟨hp0, by omega⟩), if_neg (not_le.mpr hp1)]
  have hv0 : listMax (v.take (ratFloorNat (((v.length : ℚ) - 1) * p) + 1)) =
      some (v.getD (ratFloorNat (((v.length : ℚ) - 1) * p)) 0) :=
    listMax_take_sorted hs (by omega)
  have hv1 : listMin (v.drop (ratFloorNat (((v.length : ℚ) - 1) * p) + 1)) =
      some (v.getD (ratFloorNat (((v.length : ℚ) - 1) * p) + 1) 0) :=
    listMin_drop_sorted hs hflnat
  simp only [hv0, hv1, Option.getD_some]

theorem quantileSorted_bounds {v : List ℚ} (p : ℚ) (hs : v.Sorted (· ≤ ·)) (hne : v ≠ []) :
    ∃ q, quantileSorted v p = some q ∧ v.getD 0 0 ≤ q ∧ q ≤ v.getD (v.length - 1) 0 := by
  have hlen : 0 < v.length := List.length_pos.mpr hne
  by_cases hbr1 : p ≤ 0 ∨ v.length < 2
  · refine ⟨v.getD 0 0, ?_, le_refl _, sorted_getD_mono hs (by omega) (by omega)⟩
    rw [quantileSorted, if_neg (by omega), if_pos hbr1]
    exact listMin_sorted hs hne
  · by_cases hbr2 : 1 ≤ p
    · refine ⟨v.getD (v.length - 1) 0, ?_, sorted_getD_mono hs (by omega) (by omega), le_refl _⟩
      rw [quantileSorted, if_neg (by omega), if_neg hbr1, if_pos hbr2]
      exact listMax_sorted hs hne
    · push_neg at hbr1
      obtain ⟨hidx, hi0, heq⟩ := quantileSorted_middle hs (by omega) hbr1.1 (not_le.mp hbr2)
      have hab : v.getD (ratFloorNat (((v.length : ℚ) - 1) * p)) 0 ≤
          v.getD (ratFloorNat (((v.length : ℚ) - 1) * p) + 1) 0 :=
        sorted_getD_mono hs (Nat.le_succ _) (by omega)
      have ht0 : 0 ≤ ((v.length : ℚ) - 1) * p -
          (ratFloorNat (((v.length : ℚ) - 1) * p) : ℚ) :=
        sub_nonneg.mpr (ratFloorNat_le hi0)
      have ht1 : ((v.length : ℚ) - 1) * p -
          (ratFloorNat (((v.length : ℚ) - 1) * p) : ℚ) ≤ 1 := by
        have h2 := lt_ratFloorNat_add_one hi0
        linarith
      refine ⟨_, heq, ?_, ?_⟩
      · have h1 : v.getD 0 0 ≤ v.getD (ratFloorNat (((v.length : ℚ) - 1) * p)) 0 :=
          sorted_getD_mono hs (Nat.zero_le _) (by omega)
        nlinarith [mul_nonneg (sub_nonneg.mpr hab) ht0]
      · have h2 : v.getD (ratFloorNat (((v.length : ℚ) - 1) * p) + 1) 0 ≤
            v.getD (v.length - 1) 0 := sorted_getD_mono hs (by omega) (by omega)
        have h3 := mul_le_of_le_one_right (sub_nonneg.mpr hab) ht1
        linarith

theorem quantileSorted_mono {v : List ℚ} (hs : v.Sorted (· ≤ ·)) (hne : v ≠ [])
    {p p' : ℚ} (hpp : p ≤ p') {a b : ℚ}
    (ha : quantileSorted v p = some a) (hb : quantileSorted v p' = some b) : a ≤ b := by
  have hlen : 0 < v.length := List.length_pos.mpr hne
  by_cases hbr1 : p ≤ 0 ∨ v.length < 2
  · rw [quantileSorted, if_neg (by omega), if_pos hbr1, listMin_sorted hs hne] at ha
    obtain ⟨q', hq', hlb, _⟩ := quantileSorted_bounds p' hs hne
    rw [hq'] at hb
    rw [← Option.some_inj.mp ha, ← Option.some_inj.mp hb]
    exact hlb
  · have hne2 : ¬ (p' ≤ 0 ∨ v.length < 2) := by
      push_neg at hbr1 ⊢
      exact ⟨lt_of_lt_of_le hbr1.1 hpp, hbr1.2⟩
    by_cases hbr2 : 1 ≤ p'
    · rw [quantileSorted, if_neg (by omega), if_neg hne2, if_pos hbr2,
        listMax_sorted hs hne] at hb
      obtain ⟨q, hq, _, hub⟩ := quantileSorted_bounds p hs hne
      rw [hq] at ha
      rw [← Option.some_inj.mp ha, ← Option.some_inj.mp hb]
      exact hub
    · push_neg at hbr1
      have hp'1 : p' < 1 := not_le.mp hbr2
      have hp1 : p < 1 := lt_of_le_of_lt hpp hp'1
      have hp0 : 0 < p := hbr1.1
      have hp'0 : 0 < p' := lt_of_lt_of_le hp0 hpp
      obtain ⟨hidx, hi0, heq⟩ := quantileSorted_middle hs (by omega) hp0 hp1
      obtain ⟨hidx', hi0', heq'⟩ := quantileSorted_middle hs (by omega) hp'0 hp'1
      rw [heq] at ha
      rw [heq'] at hb
      rw [← Option.some_inj.mp ha, ← Option.some_inj.mp hb]
      have hii' : ((v.length : ℚ) - 1) * p ≤ ((v.length : ℚ) - 1) * p' := by
        have hn1 : (0 : ℚ) ≤ (v.length : ℚ) - 1 := by
          have h2 : (1 : ℚ) ≤ (v.length : ℚ) := by exact_mod_cast hlen
          linarith
        exact mul_le_mul_of_nonneg_left hpp hn1
      have hfloorle : ratFloorNat (((v.length : ℚ) - 1) * p) ≤
          ratFloorNat (((v.length : ℚ) - 1) * p') := by
        have h1 : (ratFloorNat (((v.length : ℚ) - 1) * p) : ℚ) ≤
            ((v.length : ℚ) - 1) * p' := (ratFloorNat_le hi0).trans hii'
        have h2 := lt_ratFloorNat_add_one hi0'
        have h3 : (ratFloorNat (((v.length : ℚ) - 1) * p) : ℚ) <
            (ratFloorNat (((v.length : ℚ) - 1) * p') : ℚ) + 1 := lt_of_le_of_lt h1 h2
        have h4 : ratFloorNat (((v.length : ℚ) - 1) * p) <
            ratFloorNat (((v.length : ℚ) - 1) * p') + 1 := by exact_mod_cast h3
        omega
      rcases eq_or_lt_of_le hfloorle with hE | hL
      · rw [← hE]
        have hab : v.getD (ratFloorNat (((v.length : ℚ) - 1) * p)) 0 ≤
            v.getD (ratFloorNat (((v.length : ℚ) - 1) * p) + 1) 0 :=
          sorted_getD_mono hs (Nat.le_succ _) (by omega)
        have ht : ((v.length : ℚ) - 1) * p - (ratFloorNat (((v.length : ℚ) - 1) * p) : ℚ) ≤
            ((v.length : ℚ) - 1) * p' - (ratFloorNat (((v.length : ℚ) - 1) * p) : ℚ) := by
          linarith
        nlinarith [mul_le_mul_of_nonneg_left ht (sub_nonneg.mpr hab)]
      · have hab : v.getD (ratFloorNat (((v.length : ℚ) - 1) * p)) 0 ≤
            v.getD (ratFloorNat (((v.length : ℚ) - 1) * p) + 1) 0 :=
          sorted_getD_mono hs (Nat.le_succ _) (by omega)
        have hab' : v.getD (ratFloorNat (((v.length : ℚ) - 1) * p')) 0 ≤
            v.getD (ratFloorNat (((v.length : ℚ) - 1) * p') + 1) 0 :=
          sorted_getD_mono hs (Nat.le_succ _) (by omega)
        have ht1 : ((v.length : ℚ) - 1) * p -
            (ratFloorNat (((v.length : ℚ) - 1) * p) : ℚ) ≤ 1 := by
          have h2 := lt_ratFloorNat_add_one hi0
          linarith
        have ht0' : 0 ≤ ((v.length : ℚ) - 1) * p' -
            (ratFloorNat (((v.length : ℚ) - 1) * p') : ℚ) :=
          sub_nonneg.mpr (ratFloorNat_le hi0')
        have hmid : v.getD (ratFloorNat (((v.length : ℚ) - 1) * p) + 1) 0 ≤
            v.getD (ratFloorNat (((v.length : ℚ) - 1) * p')) 0 :=
          sorted_getD_mono hs hL (by omega)
        have h3 := mul_le_of_le_one_right (sub_nonneg.mpr hab)
          (ht1.trans (le_refl 1))
        have h4 := mul_nonneg (sub_nonneg.mpr hab')
          (ht0'.trans (le_refl _))
        nlinarith [mul_nonneg (sub_nonneg.mpr hab)
          (sub_nonneg.mpr (ratFloorNat_le hi0))]

/-! ## Field equations of summaryOf -/

theorem summaryOf_q1 (t : String) (v : List ℚ) :
    (summaryOf t v).q1 = (quantileSorted v (1 / 4)).getD (v.getD 0 0) := rfl

theorem summaryOf_med (t : String) (v : List ℚ) :
    (summaryOf t v).med = (quantileSorted v (1 / 2)).getD (v.getD (v.length / 2) 0) := rfl

theorem summaryOf_q3 (t : String) (v : List ℚ) :
    (summaryOf t v).q3 = (quantileSorted v (3 / 4)).getD (v.getD (v.length - 1) 0) := rfl

theorem summaryOf_lo (t : String) (v : List ℚ) :
    (summaryOf t v).lo = (listMin (v.filter (fun x => decide
      ((summaryOf t v).q1 - 3 / 2 * ((summaryOf t v).q3 - (summaryOf t v).q1) ≤ x)))).getD
        (v.getD 0 0) := rfl

theorem summaryOf_hi (t : String) (v : List ℚ) :
    (summaryOf t v).hi = (listMax (v.filter (fun x => decide
      (x ≤ (summaryOf t v).q3 + 3 / 2 * ((summaryOf t v).q3 - (summaryOf t v).q1))))).getD
        (v.getD (v.length - 1) 0) := rfl

theorem summaryOf_sample (t : String) (v : List ℚ) :
    (summaryOf t v).sample =
      (v.enum.filter (fun pr => pr.1 % (max 1 (v.length / 180)) = 0)).map Prod.snd := rfl

theorem summaryOf_n (t : String) (v : List ℚ) : (summaryOf t v).n = v.length := rfl

theorem getD_head_mem {v : List ℚ} (hne : v ≠ []) : v.getD 0 0 ∈ v := by
  have h0 : 0 < v.length := List.length_pos.mpr hne
  rw [List.getD_eq_getElem v 0 h0]
  exact List.getElem_mem h0

theorem getD_last_mem {v : List ℚ} (hne : v ≠ []) : v.getD (v.length - 1) 0 ∈ v := by
  have h0 : 0 < v.length := List.length_pos.mpr hne
  have h1 : v.length - 1 < v.length := by omega
  rw [List.getD_eq_getElem v 0 h1]
  exact List.getElem_mem h1

theorem summary_lo_mem (t : String) {v : List ℚ} (hne : v ≠ []) : (summaryOf t v).lo ∈ v := by
  rw [summaryOf_lo]
  cases hf : listMin (v.filter (fun x => decide
      ((summaryOf t v).q1 - 3 / 2 * ((summaryOf t v).q3 - (summaryOf t v).q1) ≤ x))) with
  | none =>
    rw [Option.getD_none]
    exact getD_head_mem hne
  | some m =>
    rw [Option.getD_some]
    exact List.mem_of_mem_filter (listMin_mem hf)

theorem summary_hi_mem (t : String) {v : List ℚ} (hne : v ≠ []) : (summaryOf t v).hi ∈ v := by
  rw [summaryOf_hi]
  cases hf : listMax (v.filter (fun x => decide
      (x ≤ (summaryOf t v).q3 + 3 / 2 * ((summaryOf t v).q3 - (summaryOf t v).q1)))) with
  | none =>
    rw [Option.getD_none]
    exact getD_last_mem hne
  | some m =>
    rw [Option.getD_some]
    exact List.mem_of_mem_filter (listMax_mem hf)

/-- The loFence of one summary group, written through the returned fields
(the source computes iqr = q3 - q1 and loFence = q1 - 1.5 * iqr). -/
def loFenceOf (t : String) (v : List ℚ) : ℚ :=
  (summaryOf t v).q1 - 3 / 2 * ((summaryOf t v).q3 - (summaryOf t v).q1)

/-- The hiFence of one summary group. -/
def hiFenceOf (t : String) (v : List ℚ) : ℚ :=
  (summaryOf t v).q3 + 3 / 2 * ((summaryOf t v).q3 - (summaryOf t v).q1)

theorem summaryOf_lo_fence (t : String) (v : List ℚ) :
    (summaryOf t v).lo =
      (listMin (v.filter (fun x => decide (loFenceOf t v ≤ x)))).getD (v.getD 0 0) := rfl

theorem summaryOf_hi_fence (t : String) (v : List ℚ) :
    (summaryOf t v).hi =
      (listMax (v.filter (fun x => decide (x ≤ hiFenceOf t v)))).getD
        (v.getD (v.length - 1) 0) := rfl

theorem sorted_head_le {v : List ℚ} (hs : v.Sorted (· ≤ ·)) : ∀ x ∈ v, v.getD 0 0 ≤ x := by
  intro x hx
  exact listMin_le (listMin_sorted hs (List.ne_nil_of_mem hx)) x hx

theorem sorted_le_last {v : List ℚ} (hs : v.Sorted (· ≤ ·)) :
    ∀ x ∈ v, x ≤ v.getD (v.length - 1) 0 := by
  intro x hx
  exact le_listMax (listMax_sorted hs (List.ne_nil_of_mem hx)) x hx

/-- C6: whisker endpoints.  Both endpoints are members of the group's data
array; when some value lies at or above the low fence, lo is the least such
value; when all values are below the fence, lo falls back to the group
minimum; symmetrically for hi and the high fence. -/
theorem whisker_endpoints (t : String) (v : List ℚ) (hne : v ≠ [])
    (hs : v.Sorted (· ≤ ·)) :
    ((summaryOf t v).lo ∈ v ∧ (summaryOf t v).hi ∈ v) ∧
    ((∃ x ∈ v, loFenceOf t v ≤ x) →
      loFenceOf t v ≤ (summaryOf t v).lo ∧
      ∀ x ∈ v, loFenceOf t v ≤ x → (summaryOf t v).lo ≤ x) ∧
    ((∀ x ∈ v, x < loFenceOf t v) → ∀ x ∈ v, (summaryOf t v).lo ≤ x) ∧
    ((∃ x ∈ v, x ≤ hiFenceOf t v) →
      (summaryOf t v).hi ≤ hiFenceOf t v ∧
      ∀ x ∈ v, x ≤ hiFenceOf t v → x ≤ (summaryOf t v).hi) ∧
    ((∀ x ∈ v, hiFenceOf t v < x) → ∀ x ∈ v, x ≤ (summaryOf t v).hi) := by
  refine ⟨⟨summary_lo_mem t hne, summary_hi_mem t hne⟩, ?_, ?_, ?_, ?_⟩
  · rintro ⟨x, hx, hlox⟩
    have hxf : x ∈ v.filter (fun x => decide (loFenceOf t v ≤ x)) :=
      List.mem_filter.mpr ⟨hx, by simpa using hlox⟩
    obtain ⟨m, hm⟩ := listMin_isSome (List.ne_nil_of_mem hxf)
    have hmf := List.mem_filter.mp (listMin_mem hm)
    constructor
    · rw [summaryOf_lo_fence, hm, Option.getD_some]
      simpa using hmf.2
    · intro x' hx' hlox'
      rw [summaryOf_lo_fence, hm, Option.getD_some]
      exact listMin_le hm x' (List.mem_filter.mpr ⟨hx', by simpa using hlox'⟩)
  · intro hAll x hx
    have hf : v.filter (fun x => decide (loFenceOf t v ≤ x)) = [] :=
      List.filter_eq_nil_iff.mpr (fun a ha => by simpa using not_le.mpr (hAll a ha))
    rw [summaryOf_lo_fence, hf]
    show (listMin []).getD (v.getD 0 0) ≤ x
    rw [listMin, Option.getD_none]
    exact sorted_head_le hs x hx
  · rintro ⟨x, hx, hhix⟩
    have hxf : x ∈ v.filter (fun x => decide (x ≤ hiFenceOf t v)) :=
      List.mem_filter.mpr ⟨hx, by simpa using hhix⟩
    obtain ⟨m, hm⟩ := listMax_isSome (List.ne_nil_of_mem hxf)
    have hmf := List.mem_filter.mp (listMax_mem hm)
    constructor
    · rw [summaryOf_hi_fence, hm, Option.getD_some]
      simpa using hmf.2
    · intro x' hx' hhix'
      rw [summaryOf_hi_fence, hm, Option.getD_some]
      exact le_listMax hm x' (List.mem_filter.mpr ⟨hx', by simpa using hhix'⟩)
  · intro hAll x hx
    have hf : v.filter (fun x => decide (x ≤ hiFenceOf t v)) = [] :=
      List.filter_eq_nil_iff.mpr (fun a ha => by simpa using not_le.mpr (hAll a ha))
    rw [summaryOf_hi_fence, hf]
    show x ≤ (listMax []).getD (v.getD (v.length - 1) 0)
    rw [listMax, Option.getD_none]
    exact sorted_le_last hs x hx

theorem whisker_endpoints_witness :
    (([10, 20, 30, 100] : List ℚ) ≠ [] ∧ ([10, 20, 30, 100] : List ℚ).Sorted (· ≤ ·)) ∧
    ((summaryOf "album" [10, 20, 30, 100]).lo ∈ ([10, 20, 30, 100] : List ℚ) ∧
      (summaryOf "album" [10, 20, 30, 100]).hi ∈ ([10, 20, 30, 100] : List ℚ)) :=
  ⟨⟨by decide, by decide⟩,
    (whisker_endpoints "album" [10, 20, 30, 100] (by decide) (by decide)).1⟩

/-- C7: quantiles are computed by linear interpolation between order
statistics at position (n-1)p (the two interpolation endpoints of
quantileSorted are the order statistics at floor((n-1)p) and that plus one);
in particular on [10, 20, 30, 40] the summary yields Q1 = 17.5, median = 25,
Q3 = 32.5. -/
theorem quantile_linear_interp (v : List ℚ) (p : ℚ) (hs : v.Sorted (· ≤ ·))
    (hn : 2 ≤ v.length) (hp0 : 0 < p) (hp1 : p < 1) :
    (quantileSorted v p = some (v.getD (ratFloorNat (((v.length : ℚ) - 1) * p)) 0 +
      (v.getD (ratFloorNat (((v.length : ℚ) - 1) * p) + 1) 0 -
        v.getD (ratFloorNat (((v.length : ℚ) - 1) * p)) 0) *
      (((v.length : ℚ) - 1) * p - (ratFloorNat (((v.length : ℚ) - 1) * p) : ℚ)))) ∧
    quantileSorted [10, 20, 30, 40] (1 / 4) = some (35 / 2) ∧
    quantileSorted [10, 20, 30, 40] (1 / 2) = some 25 ∧
    quantileSorted [10, 20, 30, 40] (3 / 4) = some (65 / 2) ∧
    (summaryOf "x" [10, 20, 30, 40]).q1 = 35 / 2 ∧
    (summaryOf "x" [10, 20, 30, 40]).med = 25 ∧
    (summaryOf "x" [10, 20, 30, 40]).q3 = 65 / 2 :=
  ⟨(quantileSorted_middle hs hn hp0 hp1).2.2, by decide, by decide, by decide,
    by decide, by decide, by decide⟩

theorem quantile_linear_interp_witness :
    ([10, 20, 30, 40] : List ℚ).Sorted (· ≤ ·) ∧ 2 ≤ ([10, 20, 30, 40] : List ℚ).length ∧
    (0 : ℚ) < 1 / 4 ∧ (1 : ℚ) / 4 < 1 ∧
    quantileSorted [10, 20, 30, 40] (1 / 4) = some (35 / 2) :=
  ⟨by decide, by decide, by decide, by decide,
    (quantile_linear_interp [10, 20, 30, 40] (1 / 4)
      (by decide) (by decide) (by decide) (by decide)).2.1⟩

/-- C8 counterexample: a non-empty unrecognized album type is NOT mapped to
the label other; normalizeAlbumType keeps it as its trimmed lower-cased
form ("Live" becomes "live", which is outside album/single/compilation and
is not "other"). -/
theorem normalizeAlbumType_cex :
    normalizeAlbumType (some "Live") = "live" ∧
    normalizeAlbumType (some "Live") ≠ "other" ∧
    ¬ ("live" = "album" ∨ "live" = "single" ∨ "live" = "compilation") := by
  decide

/-- C8 (amended): normalization lower-cases and trims the raw value; a value
that is empty after trimming (including a missing value) maps to the label
other; any other value is returned as its trimmed lower-cased form, even
when it is not one of album/single/compilation. -/
theorem normalizeAlbumType_amended (s : Option String) :
    (normalizeAlbumType none = "other") ∧
    (jsToLower (jsTrim (s.getD "")) = "" → normalizeAlbumType s = "other") ∧
    (jsToLower (jsTrim (s.getD "")) ≠ "" →
      normalizeAlbumType s = jsToLower (jsTrim (s.getD ""))) := by
  refine ⟨rfl, fun h => ?_, fun h => ?_⟩
  · rw [normalizeAlbumType]
    simp [h]
  · rw [normalizeAlbumType]
    simp [h]

theorem normalizeAlbumType_amended_witness :
    (jsToLower (jsTrim "  ") = "" ∧ normalizeAlbumType (some "  ") = "other") ∧
    (jsToLower (jsTrim " Album ") ≠ "" ∧
      normalizeAlbumType (some " Album ") = jsToLower (jsTrim " Album ")) :=
  ⟨⟨by decide, (normalizeAlbumType_amended (some "  ")).2.1 (by decide)⟩,
    ⟨by decide, (normalizeAlbumType_amended (some " Album ")).2.2 (by decide)⟩⟩

/-- C9: with an empty row set (the state after a failed dataset load) every
downstream aggregation produces its empty or neutral output: no top genres,
an empty genre-year matrix, no album-type distributions, no box summaries,
an empty scatter selection, and the legend fallback bounds (0, 1); being
total functions, none of these computations can raise. -/
theorem empty_rows_degrade :
    topGenres [] = [] ∧ byYearGenre [] = [] ∧ byTypePop [] = [] ∧
    boxSummaries (byTypePop []) = [] ∧ scatterData [] = [] ∧
    scatterLegend [] = (0, 1) := by
  decide

theorem quantileSorted_const {v : List ℚ} {c : ℚ} (hne : v ≠ [])
    (hc : ∀ x ∈ v, x = c) (p : ℚ) : quantileSorted v p = some c := by
  have hlen : 0 < v.length := List.length_pos.mpr hne
  by_cases hbr1 : p ≤ 0 ∨ v.length < 2
  · rw [quantileSorted, if_neg (by omega), if_pos hbr1]
    obtain ⟨m, hm⟩ := listMin_isSome hne
    rw [hm, hc m (listMin_mem hm)]
  · by_cases hbr2 : 1 ≤ p
    · rw [quantileSorted, if_neg (by omega), if_neg hbr1, if_pos hbr2]
      obtain ⟨m, hm⟩ := listMax_isSome hne
      rw [hm, hc m (listMax_mem hm)]
    · push_neg at hbr1
      have hs : v.Sorted (· ≤ ·) := List.pairwise_iff_getElem.mpr
        (fun i j hi hj _ => by
          rw [hc _ (List.getElem_mem hi), hc _ (List.getElem_mem hj)])
      obtain ⟨hidx, hi0, heq⟩ := quantileSorted_middle hs (by omega) hbr1.1 (not_le.mp hbr2)
      rw [heq]
      have h1 : v.getD (ratFloorNat (((v.length : ℚ) - 1) * p)) 0 = c := by
        rw [List.getD_eq_getElem v 0 (by omega)]
        exact hc _ (List.getElem_mem _)
      have h2 : v.getD (ratFloorNat (((v.length : ℚ) - 1) * p) + 1) 0 = c := by
        rw [List.getD_eq_getElem v 0 (by omega)]
        exact hc _ (List.getElem_mem _)
      rw [h1, h2, sub_self, zero_mul, add_zero]

theorem scatterDurs_length (rows : List Row) :
    (scatterDurs rows).length = (scatterData rows).length := by
  rw [scatterDurs, (List.perm_insertionSort _ _).length_eq, List.length_map]

theorem scatterData_length (rows : List Row) :
    (scatterData rows).length = min TOP_N (scatterBaseFilter rows).length := by
  rw [scatterData, List.length_take, (List.perm_insertionSort popDesc _).length_eq,
    min_assoc, min_self]

/-- C4 (amended): the legend bounds always satisfy legendMin <= legendMax,
and when all selected durations are identical the bounds coincide.  (The
converse direction of the original claim is false: the bounds can coincide
for non-identical durations, see the counterexample.) -/
theorem legend_bounds (rows : List Row) (c : ℚ) :
    (scatterLegend rows).1 ≤ (scatterLegend rows).2 ∧
    (scatterBaseFilter rows ≠ [] → (∀ d ∈ scatterDurs rows, d = c) →
      (scatterLegend rows).1 = (scatterLegend rows).2) := by
  constructor
  · rw [scatterLegend]
    by_cases he : (scatterBaseFilter rows).isEmpty
    · rw [if_pos he]
      norm_num
    · rw [if_neg he]
      exact min_le_max
  · intro hne hall
    have hdne : scatterDurs rows ≠ [] := by
      intro hc0
      have h1 : (scatterDurs rows).length = 0 := by rw [hc0]; rfl
      rw [scatterDurs_length, scatterData_length] at h1
      have h2 : 0 < (scatterBaseFilter rows).length := List.length_pos.mpr hne
      rw [TOP_N] at h1
      omega
    have hq1 : quantileSorted (scatterDurs rows) (3 / 100) = some c :=
      quantileSorted_const hdne hall _
    have hq2 : quantileSorted (scatterDurs rows) (97 / 100) = some c :=
      quantileSorted_const hdne hall _
    rw [scatterLegend, if_neg (fun hc0 => hne (List.isEmpty_iff.mp hc0))]
    simp only [hq1, hq2, Option.getD_some]
    simp

def cexDur (i : ℕ) : ℚ := if i = 0 then 0 else if i = 34 then 9 else 5

def cexRows : List Row := (List.range 35).map (fun i => mkR "t" "a" 50 1 (cexDur i) "" "album" 2020)

set_option maxRecDepth 20000 in
/-- C4 counterexample: a non-empty selection of 35 rows whose durations are
0, thirty-three times 5, and 9: the 3rd and 97th percentile of the durations
both equal 5, so legendMin = legendMax, although the selected durations are
not all identical. -/
theorem legend_bounds_cex :
    (scatterLegend cexRows).1 = (scatterLegend cexRows).2 ∧
    (0 : ℚ) ∈ scatterDurs cexRows ∧ (9 : ℚ) ∈ scatterDurs cexRows ∧ (0 : ℚ) ≠ 9 ∧
    scatterData cexRows ≠ [] := by
  decide

def c4Row : Row := mkR "t" "a" 50 1 3 "" "album" 2020

theorem legend_bounds_witness :
    scatterBaseFilter [c4Row] ≠ [] ∧ (∀ d ∈ scatterDurs [c4Row], d = 3) ∧
    (scatterLegend [c4Row]).1 = (scatterLegend [c4Row]).2 :=
  ⟨by decide, by decide, (legend_bounds [c4Row] 3).2 (by decide) (by decide)⟩

/-! ## Deterministic sample (C5) -/

/-- Spec-side description of the sample ("take every k-th element of the
sorted array": the elements at indices divisible by k), to be compared with
the sample the code computes. -/
def specEveryKth (k : ℕ) (v : List ℚ) : List ℚ :=
  (List.range v.length).filterMap (fun j => if j % k = 0 then some (v.getD j 0) else none)

theorem enumFrom_filter_mod (k : ℕ) (v : List ℚ) : ∀ (s : ℕ),
    ((List.enumFrom s v).filter (fun pr => pr.1 % k = 0)).map Prod.snd =
      (List.range v.length).filterMap
        (fun j => if (s + j) % k = 0 then some (v.getD j 0) else none) := by
  induction v with
  | nil => intro s; rfl
  | cons x xs ih =>
    intro s
    rw [List.enumFrom_cons, List.length_cons, List.range_succ_eq_map,
      List.filterMap_cons, List.filterMap_map]
    have htail : List.filterMap
        ((fun j => if (s + j) % k = 0 then some ((x :: xs).getD j 0) else none) ∘ Nat.succ)
        (List.range xs.length) =
        ((List.enumFrom (s + 1) xs).filter (fun pr => pr.1 % k = 0)).map Prod.snd := by
      rw [ih (s + 1)]
      refine List.filterMap_congr (fun j _ => ?_)
      have h1 : s + (j + 1) = (s + 1) + j := by omega
      show (if (s + (j + 1)) % k = 0 then some ((x :: xs).getD (j + 1) 0) else none) =
        (if ((s + 1) + j) % k = 0 then some (xs.getD j 0) else none)
      rw [h1, List.getD_cons_succ]
    by_cases hs : s % k = 0
    · rw [List.filter_cons, if_pos (by simpa using hs), List.map_cons]
      rw [show s + 0 = s from rfl] at *
      rw [if_pos hs, htail, List.getD_cons_zero]
    · rw [List.filter_cons, if_neg (by simpa using hs)]
      rw [show s + 0 = s from rfl, if_neg hs, htail]

theorem sample_eq_specEveryKth (t : String) (v : List ℚ) :
    (summaryOf t v).sample = specEveryKth (max 1 (v.length / 180)) v := by
  rw [summaryOf_sample, specEveryKth]
  have h0 := enumFrom_filter_mod (max 1 (v.length / 180)) v 0
  rw [show List.enumFrom 0 v = v.enum from rfl] at h0
  rw [h0]
  refine List.filterMap_congr (fun j _ => ?_)
  rw [Nat.zero_add]

theorem length_filter_mod_range (k : ℕ) (hk : 0 < k) : ∀ (n : ℕ),
    ((List.range n).filter (fun j => decide (j % k = 0))).length = (n + k - 1) / k := by
  intro n
  induction n with
  | zero =>
    simp only [List.range_zero, List.filter_nil, List.length_nil]
    exact (Nat.div_eq_of_lt (by omega)).symm
  | succ n ih =>
    rw [List.range_succ, List.filter_append, List.length_append, ih,
      show n + 1 + k - 1 = n + k from by omega, Nat.add_div_right n hk]
    by_cases hd : n % k = 0
    · have h1 : (List.filter (fun j => decide (j % k = 0)) [n]).length = 1 := by
        simp [List.filter_cons, hd]
      rw [h1]
      have hdm := Nat.div_add_mod n k
      obtain ⟨q, hq⟩ : ∃ q, n = k * q := ⟨n / k, by omega⟩
      subst hq
      rw [show k * q + k - 1 = k * q + (k - 1) from by omega, Nat.mul_add_div hk,
        Nat.div_eq_of_lt (show k - 1 < k from by omega),
        Nat.mul_div_cancel_left q hk]
    · have h1 : (List.filter (fun j => decide (j % k = 0)) [n]).length = 0 := by
        simp [List.filter_cons, hd]
      rw [h1]
      have hdm := Nat.div_add_mod n k
      have hrk : n % k < k := Nat.mod_lt n hk
      have e0 : n + k - 1 = k * (n / k + 1) + (n % k - 1) := by
        have e1 : k * (n / k + 1) = k * (n / k) + k := by ring
        omega
      rw [e0, Nat.mul_add_div hk, Nat.div_eq_of_lt (show n % k - 1 < k from by omega)]

theorem sample_length (t : String) (v : List ℚ) :
    (summaryOf t v).sample.length =
      (v.length + max 1 (v.length / 180) - 1) / max 1 (v.length / 180) := by
  rw [summaryOf_sample, List.length_map, ← List.countP_eq_length_filter]
  have h1 : List.countP (fun pr => decide (pr.1 % max 1 (v.length / 180) = 0)) v.enum =
      List.countP (fun j => decide (j % max 1 (v.length / 180) = 0))
        (v.enum.map Prod.fst) := by
    rw [List.countP_map]
    rfl
  rw [h1, List.enum_map_fst, List.countP_eq_length_filter,
    length_filter_mod_range _ (by omega) v.length]

theorem sample_length_le_359 (n : ℕ) :
    (n + max 1 (n / 180) - 1) / max 1 (n / 180) ≤ 359 := by
  by_cases h : n / 180 ≤ 1
  · rw [Nat.max_eq_left h]
    omega
  · rw [Nat.max_eq_right (by omega : 1 ≤ n / 180)]
    have hk : 0 < n / 180 := by omega
    have h2 : (n + n / 180 - 1) / (n / 180) < 360 := by
      rw [Nat.div_lt_iff_lt_mul hk]
      omega
    omega

/-- C5 (amended): the overlay sample is exactly the every-k-th-element
selection (indices divisible by k, k = max(1, floor(n/180))), it is
deterministic (a pure function of the group), and it has at most 359 points;
for n <= 180 it is the whole group, hence at most 180 points, but for
180 < n < 360 it exceeds 180 points (see the counterexample), so the
original at-most-180 bound is false and 359 is the tight general bound. -/
theorem sample_stride (t : String) (v : List ℚ) :
    (summaryOf t v).sample = specEveryKth (max 1 (v.length / 180)) v ∧
    (summaryOf t v).sample.length ≤ 359 ∧
    (v.length ≤ 180 → (summaryOf t v).sample = v) ∧
    (∀ t' v', t' = t → v' = v → summaryOf t' v' = summaryOf t v) := by
  refine ⟨sample_eq_specEveryKth t v, ?_, ?_, ?_⟩
  · rw [sample_length]
    exact sample_length_le_359 v.length
  · intro hle
    have hk : max 1 (v.length / 180) = 1 := Nat.max_eq_left (by omega)
    rw [summaryOf_sample, hk]
    have hall : v.enum.filter (fun pr => pr.1 % 1 = 0) = v.enum :=
      List.filter_eq_self.mpr (fun pr _ => by simp [Nat.mod_one])
    rw [hall, List.enum_map_snd]
  · intro t' v' ht hv
    rw [ht, hv]

/-- C5 counterexample: a sorted group of 181 equal popularity values gets
stride k = max(1, floor(181/180)) = 1, so the sample keeps all 181 points,
exceeding the claimed 180-point bound. -/
theorem sample_stride_cex :
    180 < (summaryOf "album" (List.replicate 181 (50 : ℚ))).sample.length ∧
    (List.replicate 181 (50 : ℚ)).Sorted (· ≤ ·) := by
  constructor
  · rw [sample_length, List.length_replicate]
    decide
  · exact List.pairwise_replicate.mpr (Or.inr (le_refl _))

theorem sample_stride_witness :
    (List.replicate 5 (7 : ℚ)).length ≤ 180 ∧
    (summaryOf "single" (List.replicate 5 (7 : ℚ))).sample = List.replicate 5 (7 : ℚ) :=
  ⟨by decide, (sample_stride "single" (List.replicate 5 (7 : ℚ))).2.2.1 (by decide)⟩

/-! ## Box summary invariants (C10) -/

theorem summary_lo_le {t : String} {v : List ℚ} {x : ℚ} (hx : x ∈ v)
    (hge : loFenceOf t v ≤ x) : (summaryOf t v).lo ≤ x := by
  have hxf : x ∈ v.filter (fun y => decide (loFenceOf t v ≤ y)) :=
    List.mem_filter.mpr ⟨hx, by simpa using hge⟩
  obtain ⟨m, hm⟩ := listMin_isSome (List.ne_nil_of_mem hxf)
  rw [summaryOf_lo_fence, hm, Option.getD_some]
  exact listMin_le hm x hxf

theorem le_summary_hi {t : String} {v : List ℚ} {x : ℚ} (hx : x ∈ v)
    (hle : x ≤ hiFenceOf t v) : x ≤ (summaryOf t v).hi := by
  have hxf : x ∈ v.filter (fun y => decide (y ≤ hiFenceOf t v)) :=
    List.mem_filter.mpr ⟨hx, by simpa using hle⟩
  obtain ⟨m, hm⟩ := listMax_isSome (List.ne_nil_of_mem hxf)
  rw [summaryOf_hi_fence, hm, Option.getD_some]
  exact le_listMax hm x hxf

theorem ratFloorNat_natCast_div (a b : ℕ) : ratFloorNat ((a : ℚ) / (b : ℚ)) = a / b := by
  rcases Nat.eq_zero_or_pos b with hb | hb
  · subst hb
    rw [Nat.cast_zero, div_zero, Nat.div_zero]
    decide
  · have hbQ : (0 : ℚ) < (b : ℚ) := by exact_mod_cast hb
    refine ratFloorNat_eq_of (by positivity) ?_ ?_
    · rw [le_div_iff hbQ]
      exact_mod_cast Nat.div_mul_le_self a b
    · rw [div_lt_iff hbQ]
      have h3 : a < (a / b + 1) * b := by
        calc a = b * (a / b) + a % b := (Nat.div_add_mod a b).symm
          _ < b * (a / b) + b := by
              have := Nat.mod_lt a hb
              omega
          _ = (a / b + 1) * b := by ring
      exact_mod_cast h3

theorem summary_q1_small {t : String} {v : List ℚ} (hne : v ≠ [])
    (hs : v.Sorted (· ≤ ·)) (hn : v.length < 2) : (summaryOf t v).q1 = v.getD 0 0 := by
  have h0 : 0 < v.length := List.length_pos.mpr hne
  rw [summaryOf_q1, quantileSorted, if_neg (by omega), if_pos (Or.inr hn),
    listMin_sorted hs hne, Option.getD_some]

theorem summary_med_small {t : String} {v : List ℚ} (hne : v ≠ [])
    (hs : v.Sorted (· ≤ ·)) (hn : v.length < 2) : (summaryOf t v).med = v.getD 0 0 := by
  have h0 : 0 < v.length := List.length_pos.mpr hne
  rw [summaryOf_med, quantileSorted, if_neg (by omega), if_pos (Or.inr hn),
    listMin_sorted hs hne, Option.getD_some]

theorem summary_q3_small {t : String} {v : List ℚ} (hne : v ≠ [])
    (hs : v.Sorted (· ≤ ·)) (hn : v.length < 2) : (summaryOf t v).q3 = v.getD 0 0 := by
  have h0 : 0 < v.length := List.length_pos.mpr hne
  rw [summaryOf_q3, quantileSorted, if_neg (by omega), if_pos (Or.inr hn),
    listMin_sorted hs hne, Option.getD_some]

theorem summary_q1_some {t : String} {v : List ℚ} {q : ℚ}
    (h : quantileSorted v (1 / 4) = some q) : (summaryOf t v).q1 = q := by
  rw [summaryOf_q1, h, Option.getD_some]

theorem summary_med_some {t : String} {v : List ℚ} {q : ℚ}
    (h : quantileSorted v (1 / 2) = some q) : (summaryOf t v).med = q := by
  rw [summaryOf_med, h, Option.getD_some]

theorem summary_q3_some {t : String} {v : List ℚ} {q : ℚ}
    (h : quantileSorted v (3 / 4) = some q) : (summaryOf t v).q3 = q := by
  rw [summaryOf_q3, h, Option.getD_some]

theorem exists_within_fences (t : String) {v : List ℚ} (hne : v ≠ [])
    (hs : v.Sorted (· ≤ ·)) :
    ∃ x ∈ v, loFenceOf t v ≤ x ∧ x ≤ hiFenceOf t v := by
  have h0 : 0 < v.length := List.length_pos.mpr hne
  by_cases hn2' : v.length < 2
  · have hq1 := summary_q1_small (t := t) hne hs hn2'
    have hq3 := summary_q3_small (t := t) hne hs hn2'
    refine ⟨v.getD 0 0, getD_head_mem hne, ?_, ?_⟩
    · rw [loFenceOf, hq1, hq3]
      linarith
    · rw [hiFenceOf, hq1, hq3]
      linarith
  · push_neg at hn2'
    obtain ⟨hidx1, hi01, heq1⟩ :=
      quantileSorted_middle (p := 1 / 4) hs hn2' (by norm_num) (by norm_num)
    obtain ⟨hidx3, hi03, heq3⟩ :=
      quantileSorted_middle (p := 3 / 4) hs hn2' (by norm_num) (by norm_num)
    have hq1 := summary_q1_some (t := t) heq1
    have hq3 := summary_q3_some (t := t) heq3
    set i1 := ratFloorNat (((v.length : ℚ) - 1) * (1 / 4)) with hi1def
    set i3 := ratFloorNat (((v.length : ℚ) - 1) * (3 / 4)) with hi3def
    have hA1B1 : v.getD i1 0 ≤ v.getD (i1 + 1) 0 :=
      sorted_getD_mono hs (Nat.le_succ _) (by omega)
    have hA3B3 : v.getD i3 0 ≤ v.getD (i3 + 1) 0 :=
      sorted_getD_mono hs (Nat.le_succ _) (by omega)
    have ht10 : 0 ≤ ((v.length : ℚ) - 1) * (1 / 4) - (i1 : ℚ) :=
      sub_nonneg.mpr (ratFloorNat_le hi01)
    have ht11 : ((v.length : ℚ) - 1) * (1 / 4) - (i1 : ℚ) ≤ 1 := by
      have h2 := lt_ratFloorNat_add_one hi01
      linarith
    have ht30 : 0 ≤ ((v.length : ℚ) - 1) * (3 / 4) - (i3 : ℚ) :=
      sub_nonneg.mpr (ratFloorNat_le hi03)
    have hq1le : (summaryOf t v).q1 ≤ v.getD (i1 + 1) 0 := by
      rw [hq1]
      nlinarith [mul_le_of_le_one_right (sub_nonneg.mpr hA1B1) ht11]
    have hq3ge : v.getD i3 0 ≤ (summaryOf t v).q3 := by
      rw [hq3]
      nlinarith [mul_nonneg (sub_nonneg.mpr hA3B3) ht30]
    have hiqr : (summaryOf t v).q1 ≤ (summaryOf t v).q3 := by
      rw [hq1, hq3]
      exact quantileSorted_mono hs hne (by norm_num) heq1 heq3
    refine ⟨v.getD (i1 + 1) 0, ?_, ?_, ?_⟩
    · rw [List.getD_eq_getElem v 0 (by omega : i1 + 1 < v.length)]
      exact List.getElem_mem _
    · rw [loFenceOf]
      linarith
    · rw [hiFenceOf]
      by_cases hn3 : v.length = 2
      · have hL : (v.length : ℚ) = 2 := by rw [hn3]; norm_num
        have hi1v : i1 = 0 := by
          rw [hi1def, hL, show ((2 : ℚ) - 1) * (1 / 4) = 1 / 4 from by norm_num]
          decide
        have hi3v : i3 = 0 := by
          rw [hi3def, hL, show ((2 : ℚ) - 1) * (3 / 4) = 3 / 4 from by norm_num]
          decide
        have hq1v : (summaryOf t v).q1 =
            v.getD 0 0 + (v.getD 1 0 - v.getD 0 0) * (1 / 4) := by
          rw [hq1, hi1v, hL]
          norm_num
        have hq3v : (summaryOf t v).q3 =
            v.getD 0 0 + (v.getD 1 0 - v.getD 0 0) * (3 / 4) := by
          rw [hq3, hi3v, hL]
          norm_num
        have hd01 : v.getD 0 0 ≤ v.getD 1 0 := sorted_getD_mono hs (by omega) (by omega)
        rw [hq1v, hq3v, hi1v]
        linarith
      · have hm2 : 2 ≤ v.length - 1 := by omega
        have hc1 : ((v.length : ℚ) - 1) * (1 / 4) =
            ((v.length - 1 : ℕ) : ℚ) / ((4 : ℕ) : ℚ) := by
          rw [Nat.cast_sub (by omega : 1 ≤ v.length)]
          push_cast
          ring
        have hc3 : ((v.length : ℚ) - 1) * (3 / 4) =
            ((3 * (v.length - 1) : ℕ) : ℚ) / ((4 : ℕ) : ℚ) := by
          rw [Nat.cast_mul, Nat.cast_sub (by omega : 1 ≤ v.length)]
          push_cast
          ring
        have hi1v : i1 = (v.length - 1) / 4 := by
          rw [hi1def, hc1, ratFloorNat_natCast_div]
        have hi3v : i3 = (3 * (v.length - 1)) / 4 := by
          rw [hi3def, hc3, ratFloorNat_natCast_div]
        have hle13 : i1 + 1 ≤ i3 := by
          rw [hi1v, hi3v]
          omega
        have hmono : v.getD (i1 + 1) 0 ≤ v.getD i3 0 :=
          sorted_getD_mono hs hle13 (by omega)
        linarith

/-- C10 (implicit invariant): every group produced by byTypePop carries a
clamped ascending-sorted popularity array with n equal to its length, and for
every such group the box summary satisfies Q1 <= median <= Q3,
lowWhisker <= highWhisker, and all five statistics lie within [0, 100]. -/
theorem box_summary_invariants :
    (∀ rows g, g ∈ byTypePop rows →
      g.pops.Sorted (· ≤ ·) ∧ (∀ x ∈ g.pops, 0 ≤ x ∧ x ≤ 100) ∧ g.n = g.pops.length) ∧
    (∀ t v, v ≠ [] → v.Sorted (· ≤ ·) → (∀ x ∈ v, 0 ≤ x ∧ x ≤ 100) →
      ((summaryOf t v).q1 ≤ (summaryOf t v).med ∧
       (summaryOf t v).med ≤ (summaryOf t v).q3 ∧
       (summaryOf t v).lo ≤ (summaryOf t v).hi) ∧
      (0 ≤ (summaryOf t v).q1 ∧ (summaryOf t v).q1 ≤ 100 ∧
       0 ≤ (summaryOf t v).med ∧ (summaryOf t v).med ≤ 100 ∧
       0 ≤ (summaryOf t v).q3 ∧ (summaryOf t v).q3 ≤ 100 ∧
       0 ≤ (summaryOf t v).lo ∧ (summaryOf t v).lo ≤ 100 ∧
       0 ≤ (summaryOf t v).hi ∧ (summaryOf t v).hi ≤ 100)) := by
  constructor
  · intro rows g hg
    rw [byTypePop] at hg
    by_cases hre : rows.isEmpty
    · rw [if_pos hre] at hg
      cases hg
    · rw [if_neg hre] at hg
      have hg2 := (List.perm_insertionSort typeOrd _).mem_iff.mp hg
      obtain ⟨t, _, rfl⟩ := List.mem_map.mp hg2
      refine ⟨?_, ?_, rfl⟩
      · show (groupPops (rowsInRange rows) t).Sorted (· ≤ ·)
        rw [groupPops]
        exact List.sorted_insertionSort _ _
      · intro x hx
        have hx' : x ∈ groupPops (rowsInRange rows) t := hx
        rw [groupPops] at hx'
        have hx2 := (List.perm_insertionSort _ _).mem_iff.mp hx' 
        obtain ⟨y, _, rfl⟩ := List.mem_map.mp hx2
        rw [clampPop]
        refine ⟨le_max_left 0 _, max_le (by norm_num) (min_le_left 100 y)⟩
  · intro t v hne hs hcl
    obtain ⟨q1v, h1, h1lb, h1ub⟩ := quantileSorted_bounds (1 / 4) hs hne
    obtain ⟨medv, h2, h2lb, h2ub⟩ := quantileSorted_bounds (1 / 2) hs hne
    obtain ⟨q3v, h3, h3lb, h3ub⟩ := quantileSorted_bounds (3 / 4) hs hne
    have e1 := summary_q1_some (t := t) h1
    have e2 := summary_med_some (t := t) h2
    have e3 := summary_q3_some (t := t) h3
    have h0v := hcl _ (getD_head_mem hne)
    have hLv := hcl _ (getD_last_mem hne)
    have hmono12 : q1v ≤ medv := quantileSorted_mono hs hne (by norm_num) h1 h2
    have hmono23 : medv ≤ q3v := quantileSorted_mono hs hne (by norm_num) h2 h3
    obtain ⟨x, hxmem, hxlo, hxhi⟩ := exists_within_fences t hne hs
    have hlohi : (summaryOf t v).lo ≤ (summaryOf t v).hi :=
      le_trans (summary_lo_le hxmem hxlo) (le_summary_hi hxmem hxhi)
    have hlomem := hcl _ (summary_lo_mem t hne)
    have hhimem := hcl _ (summary_hi_mem t hne)
    refine ⟨⟨?_, ?_, hlohi⟩, ?_, ?_, ?_, ?_, ?_, ?_,
      hlomem.1, hlomem.2, hhimem.1, hhimem.2⟩
    · rw [e1, e2]
      exact hmono12
    · rw [e2, e3]
      exact hmono23
    · rw [e1]
      linarith [h0v.1]
    · rw [e1]
      linarith [hLv.2]
    · rw [e2]
      linarith [h0v.1]
    · rw [e2]
      linarith [hLv.2]
    · rw [e3]
      linarith [h0v.1]
    · rw [e3]
      linarith [hLv.2]

theorem box_summary_invariants_witness :
    (([0, 50, 100] : List ℚ) ≠ []) ∧
    ((summaryOf "album" ([0, 50, 100] : List ℚ)).q1 ≤
        (summaryOf "album" ([0, 50, 100] : List ℚ)).med ∧
      (summaryOf "album" ([0, 50, 100] : List ℚ)).med ≤
        (summaryOf "album" ([0, 50, 100] : List ℚ)).q3 ∧
      (summaryOf "album" ([0, 50, 100] : List ℚ)).lo ≤
        (summaryOf "album" ([0, 50, 100] : List ℚ)).hi) :=
  ⟨by decide,
    (box_summary_invariants.2 "album" [0, 50, 100] (by decide) (by decide) (by decide)).1⟩
